import Mathlib

/-!
DeepGallery: shallow embedding of the media collector.

This file embeds the traversal/aggregation logic of the DeepGallery
gramplet (`deepgallery.py`).  The gramplet collects every media item
reachable from the active person (directly, through citations, names,
events, and families), deduplicates by media handle with a dict that
keeps insertion order, sorts the resulting (handle, description) pairs
by description with Python's stable sort, and displays them.

Handles are modelled as strings; the database is a record of
association lists, one per entity kind, and every `get_*_from_handle`
returns an `Option` — `none` models the upstream fatal lookup failure
(`HandleError`) raised when a handle does not resolve, which the
gramplet never guards against.  The dict `self.all_media` is modelled
as an insertion-ordered list of (handle, description) pairs.  Python's
stable sort by `x[1]` is modelled by `List.insertionSort`, which is
also stable, and any two stable sorts of the same list under the same
key agree.
-/

abbrev Handle := String

structure MediaRef where
  reference_handle : Handle
deriving DecidableEq

structure EventRef where
  reference_handle : Handle
deriving DecidableEq

structure Media where
  description : String
deriving DecidableEq

structure Citation where
  media_list : List MediaRef
deriving DecidableEq

structure Event where
  citation_list : List Handle
deriving DecidableEq

structure PersonName where
  citation_list : List Handle
deriving DecidableEq

structure Family where
  media_list : List MediaRef
  event_ref_list : List EventRef
deriving DecidableEq

structure Person where
  media_list : List MediaRef
  citation_list : List Handle
  primary_name : PersonName
  alternate_names : List PersonName
  event_ref_list : List EventRef
  family_handle_list : List Handle
deriving DecidableEq

/-- The genealogical database: one handle-indexed table per entity kind. -/
structure Db where
  person_map : List (Handle × Person)
  family_map : List (Handle × Family)
  event_map : List (Handle × Event)
  citation_map : List (Handle × Citation)
  media_map : List (Handle × Media)

def Db.get_person_from_handle (db : Db) (h : Handle) : Option Person :=
  (db.person_map.find? (fun p => p.1 == h)).map Prod.snd

def Db.get_family_from_handle (db : Db) (h : Handle) : Option Family :=
  (db.family_map.find? (fun p => p.1 == h)).map Prod.snd

def Db.get_event_from_handle (db : Db) (h : Handle) : Option Event :=
  (db.event_map.find? (fun p => p.1 == h)).map Prod.snd

def Db.get_citation_from_handle (db : Db) (h : Handle) : Option Citation :=
  (db.citation_map.find? (fun p => p.1 == h)).map Prod.snd

def Db.get_media_from_handle (db : Db) (h : Handle) : Option Media :=
  (db.media_map.find? (fun p => p.1 == h)).map Prod.snd

/-- The deduplication dict `self.all_media`, as an insertion-ordered
list of (media handle, description) pairs. -/
abbrev AllMedia := List (Handle × String)

/-- `DeepGallery.process_media`: walk a media-reference list; a handle
already present in `all_media` is skipped, otherwise the media record is
resolved and its description recorded (dict insert = append at the end). -/
def process_media (db : Db) : List MediaRef → AllMedia → Option AllMedia
  | [], all_media => some all_media
  | media_ref :: rest, all_media =>
    let media_handle := media_ref.reference_handle
    if all_media.any (fun p => p.1 == media_handle) then
      process_media db rest all_media
    else
      match db.get_media_from_handle media_handle with
      | none => none
      | some media =>
        process_media db rest (all_media ++ [(media_handle, media.description)])

/-- `DeepGallery.process_citations`: resolve each citation handle and
collect the media attached to the citation. -/
def process_citations (db : Db) : List Handle → AllMedia → Option AllMedia
  | [], all_media => some all_media
  | cit_handle :: rest, all_media =>
    (db.get_citation_from_handle cit_handle).bind fun cit =>
      (process_media db cit.media_list all_media).bind fun am =>
        process_citations db rest am

/-- `DeepGallery.process_events`: resolve each referenced event and
collect the media attached to its citations. -/
def process_events (db : Db) : List EventRef → AllMedia → Option AllMedia
  | [], all_media => some all_media
  | event_ref :: rest, all_media =>
    (db.get_event_from_handle event_ref.reference_handle).bind fun event =>
      (process_citations db event.citation_list all_media).bind fun am =>
        process_events db rest am

/-- The loop `for name in active.get_alternate_names()` in
`DeepGallery.main`: citations of each alternate name. -/
def process_names (db : Db) : List PersonName → AllMedia → Option AllMedia
  | [], all_media => some all_media
  | name :: rest, all_media =>
    (process_citations db name.citation_list all_media).bind fun am =>
      process_names db rest am

/-- The loop `for family_handle in active.get_family_handle_list()` in
`DeepGallery.main`: each family's own media, then its event citations. -/
def process_families (db : Db) : List Handle → AllMedia → Option AllMedia
  | [], all_media => some all_media
  | family_handle :: rest, all_media =>
    (db.get_family_from_handle family_handle).bind fun family =>
      (process_media db family.media_list all_media).bind fun am1 =>
        (process_events db family.event_ref_list am1).bind fun am2 =>
          process_families db rest am2

/-- The collection phase of `DeepGallery.main` (lines 201-221): build
`self.all_media` from scratch by running the six collection stages in
source order. -/
def collect_media (db : Db) (active : Person) : Option AllMedia :=
  (process_media db active.media_list []).bind fun am1 =>
    (process_citations db active.citation_list am1).bind fun am2 =>
      (process_citations db active.primary_name.citation_list am2).bind fun am3 =>
        (process_names db active.alternate_names am3).bind fun am4 =>
          (process_events db active.event_ref_list am4).bind fun am5 =>
            process_families db active.family_handle_list am5

/-- Case-sensitive lexicographic comparison of code-point sequences:
the order Python's `str` comparison uses. -/
def chars_le : List Char → List Char → Bool
  | [], _ => true
  | _ :: _, [] => false
  | a :: as, b :: bs =>
    if a < b then true else if b < a then false else chars_le as bs

/-- The comparison used by `media_list.sort(key=lambda x: x[1])`:
ascending, case-sensitive description order. -/
def descLe (a b : Handle × String) : Prop :=
  chars_le a.2.data b.2.data = true

theorem chars_le_refl : ∀ as : List Char, chars_le as as = true
  | [] => rfl
  | a :: as => by simp [chars_le, chars_le_refl as]

theorem chars_le_total : ∀ as bs : List Char,
    chars_le as bs = true ∨ chars_le bs as = true
  | [], _ => Or.inl rfl
  | _ :: _, [] => Or.inr rfl
  | a :: as, b :: bs => by
    rcases lt_trichotomy a b with h | h | h
    · exact Or.inl (by simp [chars_le, h])
    · subst h
      rcases chars_le_total as bs with ih | ih
      · exact Or.inl (by simp [chars_le, ih])
      · exact Or.inr (by simp [chars_le, ih])
    · exact Or.inr (by simp [chars_le, h])

theorem chars_le_trans : ∀ as bs cs : List Char,
    chars_le as bs = true → chars_le bs cs = true → chars_le as cs = true
  | [], _, _, _, _ => rfl
  | a :: as, b :: bs, [], _, hbc => by simp [chars_le] at hbc
  | a :: as, [], c :: cs, hab, _ => by simp [chars_le] at hab
  | a :: as, b :: bs, c :: cs, hab, hbc => by
    simp only [chars_le] at hab hbc ⊢
    rcases lt_trichotomy a b with h1 | h1 | h1
    · rcases lt_trichotomy b c with h2 | h2 | h2
      · simp [lt_trans h1 h2]
      · subst h2; simp [h1]
      · simp [h2, not_lt_of_lt h2] at hbc
    · subst h1
      rcases lt_trichotomy a c with h2 | h2 | h2
      · simp [h2]
      · subst h2
        simp [lt_irrefl] at hab hbc ⊢
        exact chars_le_trans as bs cs hab hbc
      · simp [h2, not_lt_of_lt h2] at hbc
    · simp [h1, not_lt_of_lt h1] at hab

instance : DecidableRel descLe := fun a b =>
  inferInstanceAs (Decidable (chars_le a.2.data b.2.data = true))

instance : IsTotal (Handle × String) descLe :=
  ⟨fun a b => chars_le_total a.2.data b.2.data⟩

instance : IsTrans (Handle × String) descLe :=
  ⟨fun a b c hab hbc => chars_le_trans a.2.data b.2.data c.2.data hab hbc⟩

/-- `media_list.sort(key=lambda x: x[1])`: Python's list sort is stable,
so it is modelled by the stable `List.insertionSort` under `descLe`. -/
def sort_media (l : AllMedia) : AllMedia := l.insertionSort descLe

/-- The display loop of `DeepGallery.main` (lines 226-227) together with
`add_image`: each sorted handle is resolved again and an image box with
the media description is appended to `self.image_list`. -/
def add_images (db : Db) : List Handle → AllMedia → Option AllMedia
  | [], image_list => some image_list
  | media_handle :: rest, image_list =>
    match db.get_media_from_handle media_handle with
    | none => none
    | some media =>
      add_images db rest (image_list ++ [(media_handle, media.description)])

/-- The mutable state of the gramplet that `main` touches: the displayed
image boxes (handle plus description label) and the dedup dict. -/
structure GrampletState where
  image_list : List (Handle × String)
  all_media : AllMedia
deriving DecidableEq

/-- `DeepGallery.main`: clear the display, return early on a falsy active
handle (leaving the old dict in place), otherwise resolve the person,
rebuild `self.all_media` from scratch, sort by description and display.
A `none` result models an unhandled lookup failure escaping `main`. -/
def DeepGallery.main (db : Db) (active_handle : Option Handle)
    (s : GrampletState) : Option GrampletState :=
  let s0 : GrampletState := { s with image_list := [] }
  match active_handle with
  | none => some s0
  | some ah =>
    if ah = "" then some s0
    else
      (db.get_person_from_handle ah).bind fun active =>
        (collect_media db active).bind fun am =>
          (add_images db ((sort_media am).map Prod.fst) []).bind fun il =>
            some { image_list := il, all_media := am }

/-- The observable output of one collection run: the ordered
(handle, description) pairs the gramplet displays, starting from a
freshly initialised gramplet. -/
def run_display (db : Db) (active_handle : Option Handle) :
    Option (List (Handle × String)) :=
  (DeepGallery.main db active_handle ⟨[], []⟩).map GrampletState.image_list

/-- The description the database holds for a media handle. -/
def descOf (db : Db) (h : Handle) : Option String :=
  (db.get_media_from_handle h).map Media.description

/-- Every recorded pair carries exactly the description the database
holds for its handle. -/
def DescInv (db : Db) (am : AllMedia) : Prop :=
  ∀ p ∈ am, descOf db p.1 = some p.2

/-- The media handles a media-reference list points to. -/
def media_refs (l : List MediaRef) : List Handle :=
  l.map MediaRef.reference_handle

/-- Media handles attached to one citation (empty if the citation
handle does not resolve; in that case the traversal fails anyway). -/
def citation_media (db : Db) (ch : Handle) : List Handle :=
  match db.get_citation_from_handle ch with
  | none => []
  | some cit => media_refs cit.media_list

/-- Media handles attached to a list of citations. -/
def citations_media (db : Db) (l : List Handle) : List Handle :=
  l.flatMap (citation_media db)

/-- Media handles attached to citations of one referenced event. -/
def event_media (db : Db) (er : EventRef) : List Handle :=
  match db.get_event_from_handle er.reference_handle with
  | none => []
  | some event => citations_media db event.citation_list

/-- Media handles attached to citations of a list of referenced events. -/
def events_media (db : Db) (l : List EventRef) : List Handle :=
  l.flatMap (event_media db)

/-- Media handles attached to citations of a list of names. -/
def names_media (db : Db) (l : List PersonName) : List Handle :=
  l.flatMap (fun n => citations_media db n.citation_list)

/-- Media handles attached to one family: its own media plus the media
of citations of its referenced events. -/
def family_media (db : Db) (fh : Handle) : List Handle :=
  match db.get_family_from_handle fh with
  | none => []
  | some family =>
    media_refs family.media_list ++ events_media db family.event_ref_list

/-- Media handles attached to a list of families. -/
def families_media (db : Db) (l : List Handle) : List Handle :=
  l.flatMap (family_media db)

/-- All media handles the six collection stages of `DeepGallery.main`
can reach from a person. -/
def person_media_footprint (db : Db) (p : Person) : List Handle :=
  media_refs p.media_list ++ citations_media db p.citation_list ++
  citations_media db p.primary_name.citation_list ++
  names_media db p.alternate_names ++ events_media db p.event_ref_list ++
  families_media db p.family_handle_list


theorem any_key_eq (am : AllMedia) (h : Handle) :
    am.any (fun p => p.1 == h) = true ↔ ∃ p ∈ am, p.1 = h := by
  simp [List.any_eq_true]

theorem process_media_mono {db : Db} {l : List MediaRef} {am am' : AllMedia}
    (h : process_media db l am = some am') : ∀ p ∈ am, p ∈ am' := by
  induction l generalizing am with
  | nil =>
    simp only [process_media, Option.some.injEq] at h
    subst h; exact fun p hp => hp
  | cons r rest ih =>
    simp only [process_media] at h
    by_cases hc : am.any (fun p => p.1 == r.reference_handle) = true
    · rw [if_pos hc] at h; exact ih h
    · rw [if_neg hc] at h
      cases hm : db.get_media_from_handle r.reference_handle with
      | none => rw [hm] at h; exact absurd h (by simp)
      | some media =>
        rw [hm] at h
        intro p hp
        exact ih h p (List.mem_append_left _ hp)

theorem process_media_mem {db : Db} {l : List MediaRef} {am am' : AllMedia}
    (hinv : DescInv db am) (h : process_media db l am = some am') :
    ∀ hdl d, ((hdl, d) ∈ am' ↔ (hdl, d) ∈ am ∨
      (hdl ∈ media_refs l ∧ descOf db hdl = some d)) := by
  induction l generalizing am with
  | nil =>
    simp only [process_media, Option.some.injEq] at h
    subst h; simp [media_refs]
  | cons r rest ih =>
    intro hdl d
    have hcons : media_refs (r :: rest) = r.reference_handle :: media_refs rest := rfl
    rw [hcons, List.mem_cons]
    simp only [process_media] at h
    by_cases hc : am.any (fun p => p.1 == r.reference_handle) = true
    · rw [if_pos hc] at h
      rw [ih hinv h hdl d]
      constructor
      · rintro (hmem | ⟨hin, hdesc⟩)
        · exact Or.inl hmem
        · exact Or.inr ⟨Or.inr hin, hdesc⟩
      · rintro (hmem | ⟨hin | hin, hdesc⟩)
        · exact Or.inl hmem
        · subst hin
          obtain ⟨p, hp, hfst⟩ := (any_key_eq am _).mp hc
          have hdp := hinv p hp
          rw [hfst] at hdp
          rw [hdesc] at hdp
          injection hdp with h2
          left
          have hpe : (r.reference_handle, d) = p := Prod.ext hfst.symm h2
          rw [hpe]; exact hp
        · exact Or.inr ⟨hin, hdesc⟩
    · rw [if_neg hc] at h
      cases hm : db.get_media_from_handle r.reference_handle with
      | none => rw [hm] at h; exact absurd h (by simp)
      | some media =>
        rw [hm] at h
        have hinv2 : DescInv db (am ++ [(r.reference_handle, media.description)]) := by
          intro p hp
          rcases List.mem_append.mp hp with hp | hp
          · exact hinv p hp
          · rw [List.mem_singleton] at hp; subst hp
            simp [descOf, hm]
        rw [ih hinv2 h hdl d]
        rw [List.mem_append, List.mem_singleton, Prod.mk.injEq]
        constructor
        · rintro ((hmem | ⟨rfl, rfl⟩) | ⟨hin, hdesc⟩)
          · exact Or.inl hmem
          · exact Or.inr ⟨Or.inl rfl, by simp [descOf, hm]⟩
          · exact Or.inr ⟨Or.inr hin, hdesc⟩
        · rintro (hmem | ⟨hin | hin, hdesc⟩)
          · exact Or.inl (Or.inl hmem)
          · subst hin
            simp only [descOf, hm, Option.map_some'] at hdesc
            injection hdesc with h2
            exact Or.inl (Or.inr ⟨rfl, h2.symm⟩)
          · exact Or.inr ⟨hin, hdesc⟩

theorem process_media_inv {db : Db} {l : List MediaRef} {am am' : AllMedia}
    (hinv : DescInv db am) (h : process_media db l am = some am') :
    DescInv db am' := by
  intro p hp
  rcases (process_media_mem hinv h p.1 p.2).mp hp with hmem | ⟨_, hdesc⟩
  · exact hinv p hmem
  · exact hdesc

theorem process_media_covers {db : Db} {l : List MediaRef} {am am' : AllMedia}
    (h : process_media db l am = some am') :
    ∀ hdl ∈ media_refs l, hdl ∈ am'.map Prod.fst := by
  induction l generalizing am with
  | nil => simp [media_refs]
  | cons r rest ih =>
    intro hdl hmem
    have hcons : media_refs (r :: rest) = r.reference_handle :: media_refs rest := rfl
    rw [hcons, List.mem_cons] at hmem
    simp only [process_media] at h
    by_cases hc : am.any (fun p => p.1 == r.reference_handle) = true
    · rw [if_pos hc] at h
      rcases hmem with rfl | hmem
      · obtain ⟨p, hp, hfst⟩ := (any_key_eq am _).mp hc
        exact List.mem_map.mpr ⟨p, process_media_mono h p hp, hfst⟩
      · exact ih h hdl hmem
    · rw [if_neg hc] at h
      cases hm : db.get_media_from_handle r.reference_handle with
      | none => rw [hm] at h; exact absurd h (by simp)
      | some media =>
        rw [hm] at h
        rcases hmem with heq | hmem
        · subst heq
          refine List.mem_map.mpr ⟨(r.reference_handle, media.description), ?_, rfl⟩
          exact process_media_mono h _ (List.mem_append_right _ (by simp))
        · exact ih h hdl hmem

theorem process_media_nodup {db : Db} {l : List MediaRef} {am am' : AllMedia}
    (hnd : (am.map Prod.fst).Nodup) (h : process_media db l am = some am') :
    (am'.map Prod.fst).Nodup := by
  induction l generalizing am with
  | nil =>
    simp only [process_media, Option.some.injEq] at h
    subst h; exact hnd
  | cons r rest ih =>
    simp only [process_media] at h
    by_cases hc : am.any (fun p => p.1 == r.reference_handle) = true
    · rw [if_pos hc] at h; exact ih hnd h
    · rw [if_neg hc] at h
      cases hm : db.get_media_from_handle r.reference_handle with
      | none => rw [hm] at h; exact absurd h (by simp)
      | some media =>
        rw [hm] at h
        refine ih ?_ h
        rw [List.map_append]
        refine List.Nodup.append hnd (by simp) ?_
        intro a ha hb
        simp only [List.map_cons, List.map_nil, List.mem_singleton] at hb
        rw [hb] at ha
        exact hc ((any_key_eq am r.reference_handle).mpr (List.mem_map.mp ha))

theorem process_media_fails {db : Db} {l : List MediaRef} {am : AllMedia}
    {r : MediaRef} (hr : r ∈ l)
    (hm : db.get_media_from_handle r.reference_handle = none)
    (hnk : ∀ p ∈ am, p.1 ≠ r.reference_handle) :
    process_media db l am = none := by
  induction l generalizing am with
  | nil => exact absurd hr (List.not_mem_nil r)
  | cons r0 rest ih =>
    simp only [process_media]
    by_cases hc : am.any (fun p => p.1 == r0.reference_handle) = true
    · rw [if_pos hc]
      rcases List.mem_cons.mp hr with heq | hr'
      · obtain ⟨p, hp, hfst⟩ := (any_key_eq am _).mp hc
        rw [heq] at hnk
        exact absurd hfst (hnk p hp)
      · exact ih hr' hnk
    · rw [if_neg hc]
      cases hm0 : db.get_media_from_handle r0.reference_handle with
      | none => rfl
      | some media =>
        rcases List.mem_cons.mp hr with heq | hr'
        · rw [heq] at hm; rw [hm] at hm0; exact absurd hm0 (by simp)
        · refine ih hr' ?_
          intro p hp
          rcases List.mem_append.mp hp with hp | hp
          · exact hnk p hp
          · rw [List.mem_singleton] at hp; subst hp
            intro hcon
            simp only at hcon
            rw [hcon] at hm0
            rw [hm] at hm0
            exact absurd hm0 (by simp)

theorem process_citations_mono {db : Db} {l : List Handle} {am am' : AllMedia}
    (h : process_citations db l am = some am') : ∀ p ∈ am, p ∈ am' := by
  induction l generalizing am with
  | nil =>
    simp only [process_citations, Option.some.injEq] at h
    subst h; exact fun p hp => hp
  | cons ch rest ih =>
    simp only [process_citations] at h
    rcases Option.bind_eq_some.mp h with ⟨cit, hcit, h⟩
    rcases Option.bind_eq_some.mp h with ⟨am1, hpm, h⟩
    exact fun p hp => ih h p (process_media_mono hpm p hp)

theorem process_citations_mem {db : Db} {l : List Handle} {am am' : AllMedia}
    (hinv : DescInv db am) (h : process_citations db l am = some am') :
    ∀ hdl d, ((hdl, d) ∈ am' ↔ (hdl, d) ∈ am ∨
      (hdl ∈ citations_media db l ∧ descOf db hdl = some d)) := by
  induction l generalizing am with
  | nil =>
    simp only [process_citations, Option.some.injEq] at h
    subst h; simp [citations_media]
  | cons ch rest ih =>
    intro hdl d
    simp only [process_citations] at h
    rcases Option.bind_eq_some.mp h with ⟨cit, hcit, h⟩
    rcases Option.bind_eq_some.mp h with ⟨am1, hpm, h⟩
    rw [ih (process_media_inv hinv hpm) h hdl d,
      process_media_mem hinv hpm hdl d]
    have hcm : citation_media db ch = media_refs cit.media_list := by
      simp [citation_media, hcit]
    simp only [citations_media, List.flatMap_cons, List.mem_append, hcm]
    tauto

theorem process_citations_inv {db : Db} {l : List Handle} {am am' : AllMedia}
    (hinv : DescInv db am) (h : process_citations db l am = some am') :
    DescInv db am' := by
  intro p hp
  rcases (process_citations_mem hinv h p.1 p.2).mp hp with hmem | ⟨_, hdesc⟩
  · exact hinv p hmem
  · exact hdesc

theorem process_citations_covers {db : Db} {l : List Handle} {am am' : AllMedia}
    (h : process_citations db l am = some am') :
    ∀ hdl ∈ citations_media db l, hdl ∈ am'.map Prod.fst := by
  induction l generalizing am with
  | nil => simp [citations_media]
  | cons ch rest ih =>
    intro hdl hmem
    simp only [process_citations] at h
    rcases Option.bind_eq_some.mp h with ⟨cit, hcit, h⟩
    rcases Option.bind_eq_some.mp h with ⟨am1, hpm, h⟩
    simp only [citations_media, List.flatMap_cons, List.mem_append] at hmem
    rcases hmem with hmem | hmem
    · have hcm : citation_media db ch = media_refs cit.media_list := by
        simp [citation_media, hcit]
      rw [hcm] at hmem
      obtain ⟨p, hp, hfst⟩ := List.mem_map.mp (process_media_covers hpm hdl hmem)
      exact List.mem_map.mpr ⟨p, process_citations_mono h p hp, hfst⟩
    · exact ih h hdl hmem

theorem process_citations_nodup {db : Db} {l : List Handle} {am am' : AllMedia}
    (hnd : (am.map Prod.fst).Nodup) (h : process_citations db l am = some am') :
    (am'.map Prod.fst).Nodup := by
  induction l generalizing am with
  | nil =>
    simp only [process_citations, Option.some.injEq] at h
    subst h; exact hnd
  | cons ch rest ih =>
    simp only [process_citations] at h
    rcases Option.bind_eq_some.mp h with ⟨cit, hcit, h⟩
    rcases Option.bind_eq_some.mp h with ⟨am1, hpm, h⟩
    exact ih (process_media_nodup hnd hpm) h

theorem process_citations_fails {db : Db} {l : List Handle} {am : AllMedia}
    {ch : Handle} (hch : ch ∈ l)
    (hc : db.get_citation_from_handle ch = none) :
    process_citations db l am = none := by
  induction l generalizing am with
  | nil => exact absurd hch (List.not_mem_nil ch)
  | cons ch0 rest ih =>
    simp only [process_citations]
    cases hcit : db.get_citation_from_handle ch0 with
    | none => rfl
    | some cit =>
      rcases List.mem_cons.mp hch with heq | hch'
      · rw [heq] at hc; rw [hc] at hcit; exact absurd hcit (by simp)
      · rw [Option.some_bind]
        cases hpm : process_media db cit.media_list am with
        | none => rfl
        | some am1 =>
          rw [Option.some_bind]
          exact ih hch'

theorem process_names_mono {db : Db} {l : List PersonName} {am am' : AllMedia}
    (h : process_names db l am = some am') : ∀ p ∈ am, p ∈ am' := by
  induction l generalizing am with
  | nil =>
    simp only [process_names, Option.some.injEq] at h
    subst h; exact fun p hp => hp
  | cons n rest ih =>
    simp only [process_names] at h
    rcases Option.bind_eq_some.mp h with ⟨am1, hpc, h⟩
    exact fun p hp => ih h p (process_citations_mono hpc p hp)

theorem process_names_mem {db : Db} {l : List PersonName} {am am' : AllMedia}
    (hinv : DescInv db am) (h : process_names db l am = some am') :
    ∀ hdl d, ((hdl, d) ∈ am' ↔ (hdl, d) ∈ am ∨
      (hdl ∈ names_media db l ∧ descOf db hdl = some d)) := by
  induction l generalizing am with
  | nil =>
    simp only [process_names, Option.some.injEq] at h
    subst h; simp [names_media]
  | cons n rest ih =>
    intro hdl d
    simp only [process_names] at h
    rcases Option.bind_eq_some.mp h with ⟨am1, hpc, h⟩
    rw [ih (process_citations_inv hinv hpc) h hdl d,
      process_citations_mem hinv hpc hdl d]
    simp only [names_media, List.flatMap_cons, List.mem_append]
    tauto

theorem process_names_inv {db : Db} {l : List PersonName} {am am' : AllMedia}
    (hinv : DescInv db am) (h : process_names db l am = some am') :
    DescInv db am' := by
  intro p hp
  rcases (process_names_mem hinv h p.1 p.2).mp hp with hmem | ⟨_, hdesc⟩
  · exact hinv p hmem
  · exact hdesc

theorem process_names_covers {db : Db} {l : List PersonName} {am am' : AllMedia}
    (h : process_names db l am = some am') :
    ∀ hdl ∈ names_media db l, hdl ∈ am'.map Prod.fst := by
  induction l generalizing am with
  | nil => simp [names_media]
  | cons n rest ih =>
    intro hdl hmem
    simp only [process_names] at h
    rcases Option.bind_eq_some.mp h with ⟨am1, hpc, h⟩
    simp only [names_media, List.flatMap_cons, List.mem_append] at hmem
    rcases hmem with hmem | hmem
    · obtain ⟨p, hp, hfst⟩ := List.mem_map.mp (process_citations_covers hpc hdl hmem)
      exact List.mem_map.mpr ⟨p, process_names_mono h p hp, hfst⟩
    · exact ih h hdl hmem

theorem process_names_nodup {db : Db} {l : List PersonName} {am am' : AllMedia}
    (hnd : (am.map Prod.fst).Nodup) (h : process_names db l am = some am') :
    (am'.map Prod.fst).Nodup := by
  induction l generalizing am with
  | nil =>
    simp only [process_names, Option.some.injEq] at h
    subst h; exact hnd
  | cons n rest ih =>
    simp only [process_names] at h
    rcases Option.bind_eq_some.mp h with ⟨am1, hpc, h⟩
    exact ih (process_citations_nodup hnd hpc) h

theorem process_events_mono {db : Db} {l : List EventRef} {am am' : AllMedia}
    (h : process_events db l am = some am') : ∀ p ∈ am, p ∈ am' := by
  induction l generalizing am with
  | nil =>
    simp only [process_events, Option.some.injEq] at h
    subst h; exact fun p hp => hp
  | cons er rest ih =>
    simp only [process_events] at h
    rcases Option.bind_eq_some.mp h with ⟨event, hev, h⟩
    rcases Option.bind_eq_some.mp h with ⟨am1, hpc, h⟩
    exact fun p hp => ih h p (process_citations_mono hpc p hp)

theorem process_events_mem {db : Db} {l : List EventRef} {am am' : AllMedia}
    (hinv : DescInv db am) (h : process_events db l am = some am') :
    ∀ hdl d, ((hdl, d) ∈ am' ↔ (hdl, d) ∈ am ∨
      (hdl ∈ events_media db l ∧ descOf db hdl = some d)) := by
  induction l generalizing am with
  | nil =>
    simp only [process_events, Option.some.injEq] at h
    subst h; simp [events_media]
  | cons er rest ih =>
    intro hdl d
    simp only [process_events] at h
    rcases Option.bind_eq_some.mp h with ⟨event, hev, h⟩
    rcases Option.bind_eq_some.mp h with ⟨am1, hpc, h⟩
    rw [ih (process_citations_inv hinv hpc) h hdl d,
      process_citations_mem hinv hpc hdl d]
    have hem : event_media db er = citations_media db event.citation_list := by
      simp [event_media, hev]
    simp only [events_media, List.flatMap_cons, List.mem_append, hem]
    tauto

theorem process_events_inv {db : Db} {l : List EventRef} {am am' : AllMedia}
    (hinv : DescInv db am) (h : process_events db l am = some am') :
    DescInv db am' := by
  intro p hp
  rcases (process_events_mem hinv h p.1 p.2).mp hp with hmem | ⟨_, hdesc⟩
  · exact hinv p hmem
  · exact hdesc

theorem process_events_covers {db : Db} {l : List EventRef} {am am' : AllMedia}
    (h : process_events db l am = some am') :
    ∀ hdl ∈ events_media db l, hdl ∈ am'.map Prod.fst := by
  induction l generalizing am with
  | nil => simp [events_media]
  | cons er rest ih =>
    intro hdl hmem
    simp only [process_events] at h
    rcases Option.bind_eq_some.mp h with ⟨event, hev, h⟩
    rcases Option.bind_eq_some.mp h with ⟨am1, hpc, h⟩
    simp only [events_media, List.flatMap_cons, List.mem_append] at hmem
    rcases hmem with hmem | hmem
    · have hem : event_media db er = citations_media db event.citation_list := by
        simp [event_media, hev]
      rw [hem] at hmem
      obtain ⟨p, hp, hfst⟩ := List.mem_map.mp (process_citations_covers hpc hdl hmem)
      exact List.mem_map.mpr ⟨p, process_events_mono h p hp, hfst⟩
    · exact ih h hdl hmem

theorem process_events_nodup {db : Db} {l : List EventRef} {am am' : AllMedia}
    (hnd : (am.map Prod.fst).Nodup) (h : process_events db l am = some am') :
    (am'.map Prod.fst).Nodup := by
  induction l generalizing am with
  | nil =>
    simp only [process_events, Option.some.injEq] at h
    subst h; exact hnd
  | cons er rest ih =>
    simp only [process_events] at h
    rcases Option.bind_eq_some.mp h with ⟨event, hev, h⟩
    rcases Option.bind_eq_some.mp h with ⟨am1, hpc, h⟩
    exact ih (process_citations_nodup hnd hpc) h

theorem process_events_fails {db : Db} {l : List EventRef} {am : AllMedia}
    {er : EventRef} (her : er ∈ l)
    (he : db.get_event_from_handle er.reference_handle = none) :
    process_events db l am = none := by
  induction l generalizing am with
  | nil => exact absurd her (List.not_mem_nil er)
  | cons er0 rest ih =>
    simp only [process_events]
    cases hev : db.get_event_from_handle er0.reference_handle with
    | none => rfl
    | some event =>
      rcases List.mem_cons.mp her with heq | her'
      · rw [heq] at he; rw [he] at hev; exact absurd hev (by simp)
      · rw [Option.some_bind]
        cases hpc : process_citations db event.citation_list am with
        | none => rfl
        | some am1 =>
          rw [Option.some_bind]
          exact ih her'

theorem process_families_mono {db : Db} {l : List Handle} {am am' : AllMedia}
    (h : process_families db l am = some am') : ∀ p ∈ am, p ∈ am' := by
  induction l generalizing am with
  | nil =>
    simp only [process_families, Option.some.injEq] at h
    subst h; exact fun p hp => hp
  | cons fh rest ih =>
    simp only [process_families] at h
    rcases Option.bind_eq_some.mp h with ⟨family, hf, h⟩
    rcases Option.bind_eq_some.mp h with ⟨am1, hpm, h⟩
    rcases Option.bind_eq_some.mp h with ⟨am2, hpe, h⟩
    exact fun p hp =>
      ih h p (process_events_mono hpe p (process_media_mono hpm p hp))

theorem process_families_mem {db : Db} {l : List Handle} {am am' : AllMedia}
    (hinv : DescInv db am) (h : process_families db l am = some am') :
    ∀ hdl d, ((hdl, d) ∈ am' ↔ (hdl, d) ∈ am ∨
      (hdl ∈ families_media db l ∧ descOf db hdl = some d)) := by
  induction l generalizing am with
  | nil =>
    simp only [process_families, Option.some.injEq] at h
    subst h; simp [families_media]
  | cons fh rest ih =>
    intro hdl d
    simp only [process_families] at h
    rcases Option.bind_eq_some.mp h with ⟨family, hf, h⟩
    rcases Option.bind_eq_some.mp h with ⟨am1, hpm, h⟩
    rcases Option.bind_eq_some.mp h with ⟨am2, hpe, h⟩
    have hinv1 := process_media_inv hinv hpm
    have hinv2 := process_events_inv hinv1 hpe
    rw [ih hinv2 h hdl d, process_events_mem hinv1 hpe hdl d,
      process_media_mem hinv hpm hdl d]
    have hfm : family_media db fh =
        media_refs family.media_list ++ events_media db family.event_ref_list := by
      simp [family_media, hf]
    simp only [families_media, List.flatMap_cons, List.mem_append, hfm]
    tauto

theorem process_families_inv {db : Db} {l : List Handle} {am am' : AllMedia}
    (hinv : DescInv db am) (h : process_families db l am = some am') :
    DescInv db am' := by
  intro p hp
  rcases (process_families_mem hinv h p.1 p.2).mp hp with hmem | ⟨_, hdesc⟩
  · exact hinv p hmem
  · exact hdesc

theorem process_families_covers {db : Db} {l : List Handle} {am am' : AllMedia}
    (h : process_families db l am = some am') :
    ∀ hdl ∈ families_media db l, hdl ∈ am'.map Prod.fst := by
  induction l generalizing am with
  | nil => simp [families_media]
  | cons fh rest ih =>
    intro hdl hmem
    simp only [process_families] at h
    rcases Option.bind_eq_some.mp h with ⟨family, hf, h⟩
    rcases Option.bind_eq_some.mp h with ⟨am1, hpm, h⟩
    rcases Option.bind_eq_some.mp h with ⟨am2, hpe, h⟩
    simp only [families_media, List.flatMap_cons, List.mem_append] at hmem
    rcases hmem with hmem | hmem
    · have hfm : family_media db fh =
          media_refs family.media_list ++ events_media db family.event_ref_list := by
        simp [family_media, hf]
      rw [hfm, List.mem_append] at hmem
      rcases hmem with hmem | hmem
      · obtain ⟨p, hp, hfst⟩ := List.mem_map.mp (process_media_covers hpm hdl hmem)
        exact List.mem_map.mpr
          ⟨p, process_families_mono h p (process_events_mono hpe p hp), hfst⟩
      · obtain ⟨p, hp, hfst⟩ := List.mem_map.mp (process_events_covers hpe hdl hmem)
        exact List.mem_map.mpr ⟨p, process_families_mono h p hp, hfst⟩
    · exact ih h hdl hmem

theorem process_families_nodup {db : Db} {l : List Handle} {am am' : AllMedia}
    (hnd : (am.map Prod.fst).Nodup) (h : process_families db l am = some am') :
    (am'.map Prod.fst).Nodup := by
  induction l generalizing am with
  | nil =>
    simp only [process_families, Option.some.injEq] at h
    subst h; exact hnd
  | cons fh rest ih =>
    simp only [process_families] at h
    rcases Option.bind_eq_some.mp h with ⟨family, hf, h⟩
    rcases Option.bind_eq_some.mp h with ⟨am1, hpm, h⟩
    rcases Option.bind_eq_some.mp h with ⟨am2, hpe, h⟩
    exact ih (process_events_nodup (process_media_nodup hnd hpm) hpe) h

theorem process_families_fails {db : Db} {l : List Handle} {am : AllMedia}
    {fh : Handle} (hfh : fh ∈ l)
    (hfn : db.get_family_from_handle fh = none) :
    process_families db l am = none := by
  induction l generalizing am with
  | nil => exact absurd hfh (List.not_mem_nil fh)
  | cons fh0 rest ih =>
    simp only [process_families]
    cases hf : db.get_family_from_handle fh0 with
    | none => rfl
    | some family =>
      rcases List.mem_cons.mp hfh with heq | hfh'
      · rw [heq] at hfn; rw [hfn] at hf; exact absurd hf (by simp)
      · rw [Option.some_bind]
        cases hpm : process_media db family.media_list am with
        | none => rfl
        | some am1 =>
          rw [Option.some_bind]
          cases hpe : process_events db family.event_ref_list am1 with
          | none => rfl
          | some am2 =>
            rw [Option.some_bind]
            exact ih hfh'

theorem collect_media_mem {db : Db} {p : Person} {am : AllMedia}
    (h : collect_media db p = some am) :
    ∀ hdl d, ((hdl, d) ∈ am ↔
      hdl ∈ person_media_footprint db p ∧ descOf db hdl = some d) := by
  simp only [collect_media] at h
  rcases Option.bind_eq_some.mp h with ⟨am1, h1, h⟩
  rcases Option.bind_eq_some.mp h with ⟨am2, h2, h⟩
  rcases Option.bind_eq_some.mp h with ⟨am3, h3, h⟩
  rcases Option.bind_eq_some.mp h with ⟨am4, h4, h⟩
  rcases Option.bind_eq_some.mp h with ⟨am5, h5, h6⟩
  intro hdl d
  have i0 : DescInv db ([] : AllMedia) := by intro q hq; simp at hq
  have i1 := process_media_inv i0 h1
  have i2 := process_citations_inv i1 h2
  have i3 := process_citations_inv i2 h3
  have i4 := process_names_inv i3 h4
  have i5 := process_events_inv i4 h5
  rw [process_families_mem i5 h6 hdl d, process_events_mem i4 h5 hdl d,
    process_names_mem i3 h4 hdl d, process_citations_mem i2 h3 hdl d,
    process_citations_mem i1 h2 hdl d, process_media_mem i0 h1 hdl d]
  simp only [person_media_footprint, List.mem_append, List.not_mem_nil, false_or]
  tauto

theorem collect_media_inv {db : Db} {p : Person} {am : AllMedia}
    (h : collect_media db p = some am) : DescInv db am := by
  intro q hq
  exact ((collect_media_mem h q.1 q.2).mp hq).2

theorem collect_media_nodup {db : Db} {p : Person} {am : AllMedia}
    (h : collect_media db p = some am) : (am.map Prod.fst).Nodup := by
  simp only [collect_media] at h
  rcases Option.bind_eq_some.mp h with ⟨am1, h1, h⟩
  rcases Option.bind_eq_some.mp h with ⟨am2, h2, h⟩
  rcases Option.bind_eq_some.mp h with ⟨am3, h3, h⟩
  rcases Option.bind_eq_some.mp h with ⟨am4, h4, h⟩
  rcases Option.bind_eq_some.mp h with ⟨am5, h5, h6⟩
  have n0 : (([] : AllMedia).map Prod.fst).Nodup := by simp
  exact process_families_nodup
    (process_events_nodup
      (process_names_nodup
        (process_citations_nodup
          (process_citations_nodup (process_media_nodup n0 h1) h2) h3) h4) h5) h6

theorem collect_media_covers {db : Db} {p : Person} {am : AllMedia}
    (h : collect_media db p = some am) :
    ∀ hdl ∈ person_media_footprint db p, hdl ∈ am.map Prod.fst := by
  simp only [collect_media] at h
  rcases Option.bind_eq_some.mp h with ⟨am1, h1, h⟩
  rcases Option.bind_eq_some.mp h with ⟨am2, h2, h⟩
  rcases Option.bind_eq_some.mp h with ⟨am3, h3, h⟩
  rcases Option.bind_eq_some.mp h with ⟨am4, h4, h⟩
  rcases Option.bind_eq_some.mp h with ⟨am5, h5, h6⟩
  have push5 : ∀ q ∈ am5, q ∈ am := fun q hq => process_families_mono h6 q hq
  have push4 : ∀ q ∈ am4, q ∈ am := fun q hq => push5 q (process_events_mono h5 q hq)
  have push3 : ∀ q ∈ am3, q ∈ am := fun q hq => push4 q (process_names_mono h4 q hq)
  have push2 : ∀ q ∈ am2, q ∈ am := fun q hq => push3 q (process_citations_mono h3 q hq)
  have push1 : ∀ q ∈ am1, q ∈ am := fun q hq => push2 q (process_citations_mono h2 q hq)
  have keypush : ∀ (b : AllMedia), (∀ q ∈ b, q ∈ am) →
      ∀ hdl ∈ b.map Prod.fst, hdl ∈ am.map Prod.fst := by
    intro b hb hdl hmem
    obtain ⟨q, hq, hfst⟩ := List.mem_map.mp hmem
    exact List.mem_map.mpr ⟨q, hb q hq, hfst⟩
  intro hdl hmem
  simp only [person_media_footprint, List.mem_append] at hmem
  rcases hmem with ((((hm1 | hm2) | hm3) | hm4) | hm5) | hm6
  · exact keypush am1 push1 hdl (process_media_covers h1 hdl hm1)
  · exact keypush am2 push2 hdl (process_citations_covers h2 hdl hm2)
  · exact keypush am3 push3 hdl (process_citations_covers h3 hdl hm3)
  · exact keypush am4 push4 hdl (process_names_covers h4 hdl hm4)
  · exact keypush am5 push5 hdl (process_events_covers h5 hdl hm5)
  · exact keypush am (fun q hq => hq) hdl (process_families_covers h6 hdl hm6)

theorem filter_orderedInsert_key {x : Handle × String} {d : String} (hx : x.2 = d) :
    ∀ l : AllMedia, (List.orderedInsert descLe x l).filter (fun p => p.2 == d) =
      x :: l.filter (fun p => p.2 == d)
  | [] => by simp [List.orderedInsert, hx]
  | y :: ys => by
    simp only [List.orderedInsert]
    by_cases hle : descLe x y
    · rw [if_pos hle]
      simp [List.filter_cons, hx]
    · rw [if_neg hle]
      have hy : (y.2 == d) = false := by
        rw [beq_eq_false_iff_ne]
        intro hyd
        apply hle
        have hxy : x.2 = y.2 := by rw [hx, hyd]
        show chars_le x.2.data y.2.data = true
        rw [hxy]
        exact chars_le_refl _
      simp [List.filter_cons, hy, filter_orderedInsert_key hx ys]

theorem filter_orderedInsert_ne {x : Handle × String} {d : String} (hx : ¬x.2 = d) :
    ∀ l : AllMedia, (List.orderedInsert descLe x l).filter (fun p => p.2 == d) =
      l.filter (fun p => p.2 == d)
  | [] => by simp [List.orderedInsert, hx]
  | y :: ys => by
    simp only [List.orderedInsert]
    by_cases hle : descLe x y
    · rw [if_pos hle]
      simp [List.filter_cons, hx]
    · rw [if_neg hle]
      simp [List.filter_cons, filter_orderedInsert_ne hx ys]

/-- Stability of the modelled sort: for every description value, the
pairs carrying that description appear in the sorted output in exactly
their original order. -/
theorem sort_media_filter (l : AllMedia) (d : String) :
    (sort_media l).filter (fun p => p.2 == d) = l.filter (fun p => p.2 == d) := by
  induction l with
  | nil => rfl
  | cons x xs ih =>
    simp only [sort_media, List.insertionSort] at ih ⊢
    by_cases hx : x.2 = d
    · rw [filter_orderedInsert_key hx (List.insertionSort descLe xs), ih]
      simp [List.filter_cons, hx]
    · rw [filter_orderedInsert_ne hx (List.insertionSort descLe xs), ih]
      simp [List.filter_cons, hx]

theorem sort_media_sorted (l : AllMedia) : List.Sorted descLe (sort_media l) :=
  List.sorted_insertionSort descLe l

theorem sort_media_perm (l : AllMedia) : (sort_media l).Perm l :=
  List.perm_insertionSort descLe l

theorem sort_media_mem {l : AllMedia} {q : Handle × String} :
    q ∈ sort_media l ↔ q ∈ l := by
  simp only [sort_media]
  exact List.mem_insertionSort descLe

theorem add_images_of_inv {db : Db} :
    ∀ (l il : AllMedia), DescInv db l →
      add_images db (l.map Prod.fst) il = some (il ++ l)
  | [], il, _ => by simp [add_images]
  | p :: rest, il, hinv => by
    have hd := hinv p (List.mem_cons_self p rest)
    have hrest : DescInv db rest := fun q hq => hinv q (List.mem_cons_of_mem p hq)
    cases hm : db.get_media_from_handle p.1 with
    | none =>
      simp only [descOf, hm] at hd
      exact absurd hd (by simp)
    | some m =>
      simp only [descOf, hm, Option.map_some'] at hd
      injection hd with hd2
      simp only [List.map_cons, add_images, hm]
      rw [add_images_of_inv rest (il ++ [(p.1, m.description)]) hrest, hd2]
      simp

theorem run_display_eq {db : Db} {ah : Handle} {active : Person} {am : AllMedia}
    (hne : ah ≠ "") (hp : db.get_person_from_handle ah = some active)
    (hc : collect_media db active = some am) :
    run_display db (some ah) = some (sort_media am) := by
  have hinv : DescInv db (sort_media am) := by
    intro q hq
    exact collect_media_inv hc q (sort_media_mem.mp hq)
  have had := add_images_of_inv (sort_media am) [] hinv
  simp only [List.nil_append] at had
  simp [run_display, DeepGallery.main, if_neg hne, hp, hc, had]

theorem run_display_none_of_person_none {db : Db} {ah : Handle} (hne : ah ≠ "")
    (hp : db.get_person_from_handle ah = none) :
    run_display db (some ah) = none := by
  simp [run_display, DeepGallery.main, if_neg hne, hp]

theorem run_display_none_of_collect_none {db : Db} {ah : Handle} {active : Person}
    (hne : ah ≠ "") (hp : db.get_person_from_handle ah = some active)
    (hc : collect_media db active = none) :
    run_display db (some ah) = none := by
  simp [run_display, DeepGallery.main, if_neg hne, hp, hc]

theorem run_display_some_inv {db : Db} {ah : Handle} {out : List (Handle × String)}
    (hne : ah ≠ "") (h : run_display db (some ah) = some out) :
    ∃ active am, db.get_person_from_handle ah = some active ∧
      collect_media db active = some am ∧ out = sort_media am := by
  cases hp : db.get_person_from_handle ah with
  | none =>
    rw [run_display_none_of_person_none hne hp] at h
    exact absurd h (by simp)
  | some active =>
    cases hc : collect_media db active with
    | none =>
      rw [run_display_none_of_collect_none hne hp hc] at h
      exact absurd h (by simp)
    | some am =>
      have heq := run_display_eq hne hp hc
      rw [heq] at h
      injection h with h
      exact ⟨active, am, rfl, hc, h.symm⟩

theorem collect_media_none_of_media {db : Db} {p : Person} {mr : MediaRef}
    (hmr : mr ∈ p.media_list)
    (hm : db.get_media_from_handle mr.reference_handle = none) :
    collect_media db p = none := by
  simp only [collect_media]
  rw [process_media_fails hmr hm (by intro q hq; simp at hq)]
  rfl

theorem collect_media_none_of_citation {db : Db} {p : Person} {ch : Handle}
    (hch : ch ∈ p.citation_list)
    (hc : db.get_citation_from_handle ch = none) :
    collect_media db p = none := by
  simp only [collect_media]
  cases h1 : process_media db p.media_list [] with
  | none => rfl
  | some am1 =>
    simp only [Option.some_bind]
    rw [process_citations_fails hch hc]
    rfl

theorem collect_media_none_of_event {db : Db} {p : Person} {er : EventRef}
    (her : er ∈ p.event_ref_list)
    (he : db.get_event_from_handle er.reference_handle = none) :
    collect_media db p = none := by
  simp only [collect_media]
  cases h1 : process_media db p.media_list [] with
  | none => rfl
  | some am1 =>
    simp only [Option.some_bind]
    cases h2 : process_citations db p.citation_list am1 with
    | none => rfl
    | some am2 =>
      simp only [Option.some_bind]
      cases h3 : process_citations db p.primary_name.citation_list am2 with
      | none => rfl
      | some am3 =>
        simp only [Option.some_bind]
        cases h4 : process_names db p.alternate_names am3 with
        | none => rfl
        | some am4 =>
          simp only [Option.some_bind]
          rw [process_events_fails her he]
          rfl

theorem collect_media_none_of_family {db : Db} {p : Person} {fh : Handle}
    (hfh : fh ∈ p.family_handle_list)
    (hf : db.get_family_from_handle fh = none) :
    collect_media db p = none := by
  simp only [collect_media]
  cases h1 : process_media db p.media_list [] with
  | none => rfl
  | some am1 =>
    simp only [Option.some_bind]
    cases h2 : process_citations db p.citation_list am1 with
    | none => rfl
    | some am2 =>
      simp only [Option.some_bind]
      cases h3 : process_citations db p.primary_name.citation_list am2 with
      | none => rfl
      | some am3 =>
        simp only [Option.some_bind]
        cases h4 : process_names db p.alternate_names am3 with
        | none => rfl
        | some am4 =>
          simp only [Option.some_bind]
          cases h5 : process_events db p.event_ref_list am4 with
          | none => rfl
          | some am5 =>
            simp only [Option.some_bind]
            exact process_families_fails hfh hf

/-- A media-reference list containing a reference whose media handle
does not resolve. -/
def MediaDangling (db : Db) (l : List MediaRef) : Prop :=
  ∃ mr ∈ l, db.get_media_from_handle mr.reference_handle = none

/-- A citation-handle list in which some handle fails to resolve, or
resolves to a citation whose media list contains a dangling media
reference. -/
def CitationsDangling (db : Db) (l : List Handle) : Prop :=
  ∃ ch ∈ l, db.get_citation_from_handle ch = none ∨
    ∃ cit, db.get_citation_from_handle ch = some cit ∧
      MediaDangling db cit.media_list

/-- An event-reference list in which some event handle fails to
resolve, or resolves to an event with a dangling citation or dangling
media reference below it. -/
def EventsDangling (db : Db) (l : List EventRef) : Prop :=
  ∃ er ∈ l, db.get_event_from_handle er.reference_handle = none ∨
    ∃ event, db.get_event_from_handle er.reference_handle = some event ∧
      CitationsDangling db event.citation_list

/-- A name list in which some name has a dangling citation or dangling
media reference below it. -/
def NamesDangling (db : Db) (l : List PersonName) : Prop :=
  ∃ n ∈ l, CitationsDangling db n.citation_list

/-- A family-handle list in which some family handle fails to resolve,
or resolves to a family with a dangling media reference or a dangling
event below it. -/
def FamiliesDangling (db : Db) (l : List Handle) : Prop :=
  ∃ fh ∈ l, db.get_family_from_handle fh = none ∨
    ∃ f, db.get_family_from_handle fh = some f ∧
      (MediaDangling db f.media_list ∨ EventsDangling db f.event_ref_list)

/-- Some handle dereferenced anywhere during the traversal of
`DeepGallery.main` fails to resolve: a media reference, citation
handle, event reference or family handle, at any depth the code
reaches (person, primary and alternate names, events and their
citations, citations and their media, families, family media and
family events). -/
def TraversalDangling (db : Db) (p : Person) : Prop :=
  MediaDangling db p.media_list
  ∨ CitationsDangling db p.citation_list
  ∨ CitationsDangling db p.primary_name.citation_list
  ∨ NamesDangling db p.alternate_names
  ∨ EventsDangling db p.event_ref_list
  ∨ FamiliesDangling db p.family_handle_list

theorem process_media_fails_of_inv {db : Db} {l : List MediaRef} {am : AllMedia}
    (hinv : DescInv db am) (hd : MediaDangling db l) :
    process_media db l am = none := by
  obtain ⟨mr, hmr, hm⟩ := hd
  refine process_media_fails hmr hm ?_
  intro q hq hcon
  have hdq := hinv q hq
  rw [hcon] at hdq
  simp [descOf, hm] at hdq

theorem process_citations_fails_of_inv {db : Db} {l : List Handle} {am : AllMedia}
    (hinv : DescInv db am) (hd : CitationsDangling db l) :
    process_citations db l am = none := by
  induction l generalizing am with
  | nil =>
    obtain ⟨ch, hch, _⟩ := hd
    exact absurd hch (List.not_mem_nil ch)
  | cons ch0 rest ih =>
    obtain ⟨ch, hch, hcase⟩ := hd
    simp only [process_citations]
    cases hcit : db.get_citation_from_handle ch0 with
    | none => rfl
    | some cit0 =>
      simp only [Option.some_bind]
      rcases List.mem_cons.mp hch with heq | hch'
      · subst heq
        rcases hcase with hnone | ⟨cit, hcit', hmd⟩
        · rw [hnone] at hcit
          exact absurd hcit (by simp)
        · rw [hcit'] at hcit
          injection hcit with hcc
          subst hcc
          rw [process_media_fails_of_inv hinv hmd]
          rfl
      · cases hpm : process_media db cit0.media_list am with
        | none => rfl
        | some am1 =>
          simp only [Option.some_bind]
          exact ih (process_media_inv hinv hpm) ⟨ch, hch', hcase⟩

theorem process_events_fails_of_inv {db : Db} {l : List EventRef} {am : AllMedia}
    (hinv : DescInv db am) (hd : EventsDangling db l) :
    process_events db l am = none := by
  induction l generalizing am with
  | nil =>
    obtain ⟨er, her, _⟩ := hd
    exact absurd her (List.not_mem_nil er)
  | cons er0 rest ih =>
    obtain ⟨er, her, hcase⟩ := hd
    simp only [process_events]
    cases hev : db.get_event_from_handle er0.reference_handle with
    | none => rfl
    | some ev0 =>
      simp only [Option.some_bind]
      rcases List.mem_cons.mp her with heq | her'
      · subst heq
        rcases hcase with hnone | ⟨event, hev', hcd⟩
        · rw [hnone] at hev
          exact absurd hev (by simp)
        · rw [hev'] at hev
          injection hev with hee
          subst hee
          rw [process_citations_fails_of_inv hinv hcd]
          rfl
      · cases hpc : process_citations db ev0.citation_list am with
        | none => rfl
        | some am1 =>
          simp only [Option.some_bind]
          exact ih (process_citations_inv hinv hpc) ⟨er, her', hcase⟩

theorem process_names_fails_of_inv {db : Db} {l : List PersonName} {am : AllMedia}
    (hinv : DescInv db am) (hd : NamesDangling db l) :
    process_names db l am = none := by
  induction l generalizing am with
  | nil =>
    obtain ⟨n, hn, _⟩ := hd
    exact absurd hn (List.not_mem_nil n)
  | cons n0 rest ih =>
    obtain ⟨n, hn, hcd⟩ := hd
    simp only [process_names]
    rcases List.mem_cons.mp hn with heq | hn'
    · subst heq
      rw [process_citations_fails_of_inv hinv hcd]
      rfl
    · cases hpc : process_citations db n0.citation_list am with
      | none => rfl
      | some am1 =>
        simp only [Option.some_bind]
        exact ih (process_citations_inv hinv hpc) ⟨n, hn', hcd⟩

theorem process_families_fails_of_inv {db : Db} {l : List Handle} {am : AllMedia}
    (hinv : DescInv db am) (hd : FamiliesDangling db l) :
    process_families db l am = none := by
  induction l generalizing am with
  | nil =>
    obtain ⟨fh, hfh, _⟩ := hd
    exact absurd hfh (List.not_mem_nil fh)
  | cons fh0 rest ih =>
    obtain ⟨fh, hfh, hcase⟩ := hd
    simp only [process_families]
    cases hf : db.get_family_from_handle fh0 with
    | none => rfl
    | some f0 =>
      simp only [Option.some_bind]
      rcases List.mem_cons.mp hfh with heq | hfh'
      · subst heq
        rcases hcase with hnone | ⟨f, hf', hmd | hed⟩
        · rw [hnone] at hf
          exact absurd hf (by simp)
        · rw [hf'] at hf
          injection hf with hff
          subst hff
          rw [process_media_fails_of_inv hinv hmd]
          rfl
        · rw [hf'] at hf
          injection hf with hff
          subst hff
          cases hpm : process_media db f.media_list am with
          | none => rfl
          | some am1 =>
            simp only [Option.some_bind]
            rw [process_events_fails_of_inv (process_media_inv hinv hpm) hed]
            rfl
      · cases hpm : process_media db f0.media_list am with
        | none => rfl
        | some am1 =>
          simp only [Option.some_bind]
          cases hpe : process_events db f0.event_ref_list am1 with
          | none => rfl
          | some am2 =>
            simp only [Option.some_bind]
            exact ih (process_events_inv (process_media_inv hinv hpm) hpe)
              ⟨fh, hfh', hcase⟩

theorem collect_media_none_of_dangling {db : Db} {p : Person}
    (hd : TraversalDangling db p) : collect_media db p = none := by
  have i0 : DescInv db ([] : AllMedia) := by intro q hq; simp at hq
  simp only [collect_media]
  rcases hd with h1 | h2 | h3 | h4 | h5 | h6
  · rw [process_media_fails_of_inv i0 h1]
    rfl
  · cases hpm : process_media db p.media_list [] with
    | none => rfl
    | some am1 =>
      simp only [Option.some_bind]
      rw [process_citations_fails_of_inv (process_media_inv i0 hpm) h2]
      rfl
  · cases hpm : process_media db p.media_list [] with
    | none => rfl
    | some am1 =>
      simp only [Option.some_bind]
      cases hc1 : process_citations db p.citation_list am1 with
      | none => rfl
      | some am2 =>
        simp only [Option.some_bind]
        rw [process_citations_fails_of_inv
          (process_citations_inv (process_media_inv i0 hpm) hc1) h3]
        rfl
  · cases hpm : process_media db p.media_list [] with
    | none => rfl
    | some am1 =>
      simp only [Option.some_bind]
      cases hc1 : process_citations db p.citation_list am1 with
      | none => rfl
      | some am2 =>
        simp only [Option.some_bind]
        cases hc2 : process_citations db p.primary_name.citation_list am2 with
        | none => rfl
        | some am3 =>
          simp only [Option.some_bind]
          rw [process_names_fails_of_inv
            (process_citations_inv
              (process_citations_inv (process_media_inv i0 hpm) hc1) hc2) h4]
          rfl
  · cases hpm : process_media db p.media_list [] with
    | none => rfl
    | some am1 =>
      simp only [Option.some_bind]
      cases hc1 : process_citations db p.citation_list am1 with
      | none => rfl
      | some am2 =>
        simp only [Option.some_bind]
        cases hc2 : process_citations db p.primary_name.citation_list am2 with
        | none => rfl
        | some am3 =>
          simp only [Option.some_bind]
          cases hn : process_names db p.alternate_names am3 with
          | none => rfl
          | some am4 =>
            simp only [Option.some_bind]
            rw [process_events_fails_of_inv
              (process_names_inv
                (process_citations_inv
                  (process_citations_inv (process_media_inv i0 hpm) hc1) hc2)
                hn) h5]
            rfl
  · cases hpm : process_media db p.media_list [] with
    | none => rfl
    | some am1 =>
      simp only [Option.some_bind]
      cases hc1 : process_citations db p.citation_list am1 with
      | none => rfl
      | some am2 =>
        simp only [Option.some_bind]
        cases hc2 : process_citations db p.primary_name.citation_list am2 with
        | none => rfl
        | some am3 =>
          simp only [Option.some_bind]
          cases hn : process_names db p.alternate_names am3 with
          | none => rfl
          | some am4 =>
            simp only [Option.some_bind]
            cases he : process_events db p.event_ref_list am4 with
            | none => rfl
            | some am5 =>
              simp only [Option.some_bind]
              exact process_families_fails_of_inv
                (process_events_inv
                  (process_names_inv
                    (process_citations_inv
                      (process_citations_inv (process_media_inv i0 hpm) hc1)
                      hc2) hn) he) h6

/-- The six collection rules the specification lists, one per stage of
`DeepGallery.main`. -/
inductive Rule where
  | person_media
  | person_citations
  | primary_name_citations
  | alternate_name_citations
  | person_events
  | family_media
deriving DecidableEq

/-- Apply one collection rule to the accumulated dict. -/
def apply_rule (db : Db) (active : Person) (am : AllMedia) : Rule → Option AllMedia
  | Rule.person_media => process_media db active.media_list am
  | Rule.person_citations => process_citations db active.citation_list am
  | Rule.primary_name_citations =>
    process_citations db active.primary_name.citation_list am
  | Rule.alternate_name_citations => process_names db active.alternate_names am
  | Rule.person_events => process_events db active.event_ref_list am
  | Rule.family_media => process_families db active.family_handle_list am

/-- Run a list of collection rules in order, threading the dict. -/
def run_rules (db : Db) (active : Person) : List Rule → AllMedia → Option AllMedia
  | [], am => some am
  | r :: rest, am =>
    (apply_rule db active am r).bind fun am1 => run_rules db active rest am1

/-- The media handles one rule can reach. -/
def rule_media (db : Db) (active : Person) : Rule → List Handle
  | Rule.person_media => media_refs active.media_list
  | Rule.person_citations => citations_media db active.citation_list
  | Rule.primary_name_citations =>
    citations_media db active.primary_name.citation_list
  | Rule.alternate_name_citations => names_media db active.alternate_names
  | Rule.person_events => events_media db active.event_ref_list
  | Rule.family_media => families_media db active.family_handle_list

/-- The order in which `DeepGallery.main` applies the six rules. -/
def spec_rule_order : List Rule :=
  [Rule.person_media, Rule.person_citations, Rule.primary_name_citations,
   Rule.alternate_name_citations, Rule.person_events, Rule.family_media]

theorem collect_media_eq_run_rules (db : Db) (p : Person) :
    collect_media db p = run_rules db p spec_rule_order [] := by
  simp only [collect_media, spec_rule_order, run_rules, apply_rule]
  cases process_media db p.media_list [] with
  | none => rfl
  | some am1 =>
    simp only [Option.some_bind]
    cases process_citations db p.citation_list am1 with
    | none => rfl
    | some am2 =>
      simp only [Option.some_bind]
      cases process_citations db p.primary_name.citation_list am2 with
      | none => rfl
      | some am3 =>
        simp only [Option.some_bind]
        cases process_names db p.alternate_names am3 with
        | none => rfl
        | some am4 =>
          simp only [Option.some_bind]
          cases process_events db p.event_ref_list am4 with
          | none => rfl
          | some am5 =>
            simp only [Option.some_bind]
            cases process_families db p.family_handle_list am5 with
            | none => rfl
            | some am6 => rfl

theorem apply_rule_mem {db : Db} {p : Person} {am am' : AllMedia} {r : Rule}
    (hinv : DescInv db am) (h : apply_rule db p am r = some am') :
    ∀ hdl d, ((hdl, d) ∈ am' ↔ (hdl, d) ∈ am ∨
      (hdl ∈ rule_media db p r ∧ descOf db hdl = some d)) := by
  cases r with
  | person_media => exact process_media_mem hinv h
  | person_citations => exact process_citations_mem hinv h
  | primary_name_citations => exact process_citations_mem hinv h
  | alternate_name_citations => exact process_names_mem hinv h
  | person_events => exact process_events_mem hinv h
  | family_media => exact process_families_mem hinv h

theorem apply_rule_inv {db : Db} {p : Person} {am am' : AllMedia} {r : Rule}
    (hinv : DescInv db am) (h : apply_rule db p am r = some am') :
    DescInv db am' := by
  intro q hq
  rcases (apply_rule_mem hinv h q.1 q.2).mp hq with hmem | ⟨_, hdesc⟩
  · exact hinv q hmem
  · exact hdesc

theorem apply_rule_nodup {db : Db} {p : Person} {am am' : AllMedia} {r : Rule}
    (hnd : (am.map Prod.fst).Nodup) (h : apply_rule db p am r = some am') :
    (am'.map Prod.fst).Nodup := by
  cases r with
  | person_media => exact process_media_nodup hnd h
  | person_citations => exact process_citations_nodup hnd h
  | primary_name_citations => exact process_citations_nodup hnd h
  | alternate_name_citations => exact process_names_nodup hnd h
  | person_events => exact process_events_nodup hnd h
  | family_media => exact process_families_nodup hnd h

theorem run_rules_mem {db : Db} {p : Person} {rules : List Rule} {am am' : AllMedia}
    (hinv : DescInv db am) (h : run_rules db p rules am = some am') :
    ∀ hdl d, ((hdl, d) ∈ am' ↔ (hdl, d) ∈ am ∨
      (hdl ∈ rules.flatMap (rule_media db p) ∧ descOf db hdl = some d)) := by
  induction rules generalizing am with
  | nil =>
    simp only [run_rules, Option.some.injEq] at h
    subst h; simp
  | cons r rest ih =>
    intro hdl d
    simp only [run_rules] at h
    rcases Option.bind_eq_some.mp h with ⟨am1, h1, h⟩
    rw [ih (apply_rule_inv hinv h1) h hdl d, apply_rule_mem hinv h1 hdl d]
    simp only [List.flatMap_cons, List.mem_append]
    tauto

theorem run_rules_nodup {db : Db} {p : Person} {rules : List Rule} {am am' : AllMedia}
    (hnd : (am.map Prod.fst).Nodup) (h : run_rules db p rules am = some am') :
    (am'.map Prod.fst).Nodup := by
  induction rules generalizing am with
  | nil =>
    simp only [run_rules, Option.some.injEq] at h
    subst h; exact hnd
  | cons r rest ih =>
    simp only [run_rules] at h
    rcases Option.bind_eq_some.mp h with ⟨am1, h1, h⟩
    exact ih (apply_rule_nodup hnd h1) h

/-- Transcription of the specification wording: a media identifier
attached to a citation reached through the given citation handle. -/
def SpecCitationMedia (db : Db) (ch : Handle) (hdl : Handle) : Prop :=
  ∃ cit, db.get_citation_from_handle ch = some cit ∧
    hdl ∈ cit.media_list.map MediaRef.reference_handle

/-- Transcription of the specification wording: a media identifier
attached to a citation of the event reached through the given event
reference. -/
def SpecEventMedia (db : Db) (er : EventRef) (hdl : Handle) : Prop :=
  ∃ event, db.get_event_from_handle er.reference_handle = some event ∧
    ∃ ch ∈ event.citation_list, SpecCitationMedia db ch hdl

/-- Transcription of the specification's enumeration of media sources
for a person: media directly attached to the person; media attached to
citations of the person, of the primary name, of each alternate name,
and of each event referenced by the person; and, for each family the
person belongs to, media directly attached to the family and media
attached to citations of events referenced by the family. -/
def SpecReachable (db : Db) (p : Person) (hdl : Handle) : Prop :=
  hdl ∈ p.media_list.map MediaRef.reference_handle
  ∨ (∃ ch ∈ p.citation_list, SpecCitationMedia db ch hdl)
  ∨ (∃ ch ∈ p.primary_name.citation_list, SpecCitationMedia db ch hdl)
  ∨ (∃ n ∈ p.alternate_names, ∃ ch ∈ n.citation_list, SpecCitationMedia db ch hdl)
  ∨ (∃ er ∈ p.event_ref_list, SpecEventMedia db er hdl)
  ∨ (∃ fh ∈ p.family_handle_list, ∃ f, db.get_family_from_handle fh = some f ∧
      (hdl ∈ f.media_list.map MediaRef.reference_handle ∨
       ∃ er ∈ f.event_ref_list, SpecEventMedia db er hdl))

theorem mem_citation_media_iff {db : Db} {ch hdl : Handle} :
    hdl ∈ citation_media db ch ↔ SpecCitationMedia db ch hdl := by
  unfold citation_media SpecCitationMedia
  cases hc : db.get_citation_from_handle ch with
  | none => simp
  | some cit => simp [media_refs]

theorem mem_citations_media_iff {db : Db} {l : List Handle} {hdl : Handle} :
    hdl ∈ citations_media db l ↔ ∃ ch ∈ l, SpecCitationMedia db ch hdl := by
  simp [citations_media, List.mem_flatMap, mem_citation_media_iff]

theorem mem_names_media_iff {db : Db} {l : List PersonName} {hdl : Handle} :
    hdl ∈ names_media db l ↔
      ∃ n ∈ l, ∃ ch ∈ n.citation_list, SpecCitationMedia db ch hdl := by
  simp [names_media, List.mem_flatMap, mem_citations_media_iff]

theorem mem_event_media_iff {db : Db} {er : EventRef} {hdl : Handle} :
    hdl ∈ event_media db er ↔ SpecEventMedia db er hdl := by
  unfold event_media SpecEventMedia
  cases he : db.get_event_from_handle er.reference_handle with
  | none => simp
  | some event => simp [mem_citations_media_iff]

theorem mem_events_media_iff {db : Db} {l : List EventRef} {hdl : Handle} :
    hdl ∈ events_media db l ↔ ∃ er ∈ l, SpecEventMedia db er hdl := by
  simp [events_media, List.mem_flatMap, mem_event_media_iff]

theorem mem_family_media_iff {db : Db} {fh hdl : Handle} :
    hdl ∈ family_media db fh ↔
      ∃ f, db.get_family_from_handle fh = some f ∧
        (hdl ∈ f.media_list.map MediaRef.reference_handle ∨
         ∃ er ∈ f.event_ref_list, SpecEventMedia db er hdl) := by
  unfold family_media
  cases hf : db.get_family_from_handle fh with
  | none => simp
  | some f => simp [media_refs, List.mem_append, mem_events_media_iff]

theorem mem_families_media_iff {db : Db} {l : List Handle} {hdl : Handle} :
    hdl ∈ families_media db l ↔
      ∃ fh ∈ l, ∃ f, db.get_family_from_handle fh = some f ∧
        (hdl ∈ f.media_list.map MediaRef.reference_handle ∨
         ∃ er ∈ f.event_ref_list, SpecEventMedia db er hdl) := by
  simp [families_media, List.mem_flatMap, mem_family_media_iff]

theorem mem_footprint_iff {db : Db} {p : Person} {hdl : Handle} :
    hdl ∈ person_media_footprint db p ↔ SpecReachable db p hdl := by
  simp only [person_media_footprint, List.mem_append, SpecReachable,
    mem_citations_media_iff, mem_names_media_iff, mem_events_media_iff,
    mem_families_media_iff, media_refs, or_assoc]

/-- Example person reaching media through all six rules; the handle MZ
is reachable through three different paths. -/
def exPerson : Person where
  media_list := [⟨"MZ"⟩]
  citation_list := ["C1"]
  primary_name := ⟨["C2"]⟩
  alternate_names := [⟨["C3"]⟩]
  event_ref_list := [⟨"E1"⟩]
  family_handle_list := ["F1"]

/-- Example database for concrete checks. -/
def exDb : Db where
  person_map := [("P1", exPerson)]
  family_map := [("F1", { media_list := [⟨"MZ"⟩, ⟨"MB"⟩], event_ref_list := [⟨"E2"⟩] })]
  event_map := [("E1", ⟨["C4"]⟩), ("E2", ⟨["C5"]⟩)]
  citation_map := [("C1", ⟨[⟨"MA"⟩]⟩), ("C2", ⟨[⟨"MM"⟩]⟩), ("C3", ⟨[⟨"MZ"⟩]⟩),
    ("C4", ⟨[⟨"MF"⟩]⟩), ("C5", ⟨[⟨"MA"⟩]⟩)]
  media_map := [("MZ", ⟨"Zebra"⟩), ("MA", ⟨"Apple"⟩), ("MM", ⟨"Mango"⟩),
    ("MF", ⟨"Banana"⟩), ("MB", ⟨"Cherry"⟩)]

/-- Discovery-order dict built by `collect_media` on `exDb`. -/
def exAm : AllMedia :=
  [("MZ", "Zebra"), ("MA", "Apple"), ("MM", "Mango"), ("MF", "Banana"),
   ("MB", "Cherry")]

/-- Description-sorted display output for `exDb`. -/
def exOut : List (Handle × String) :=
  [("MA", "Apple"), ("MF", "Banana"), ("MB", "Cherry"), ("MM", "Mango"),
   ("MZ", "Zebra")]

/-- A person whose citation C1 resolves but carries a media reference
whose handle MX resolves to nothing: a dangling reference two levels
deep in the traversal. -/
def danglingPerson : Person where
  media_list := []
  citation_list := ["C1"]
  primary_name := ⟨[]⟩
  alternate_names := []
  event_ref_list := []
  family_handle_list := []

/-- Database where person P1 and citation C1 resolve but C1's media
reference MX dangles. -/
def danglingDb : Db where
  person_map := [("P1", danglingPerson)]
  family_map := []
  event_map := []
  citation_map := [("C1", ⟨[⟨"MX"⟩]⟩)]
  media_map := []

/-- Database with no person records at all. -/
def emptyPersonDb : Db := ⟨[], [], [], [], []⟩

/-- Person owning media M1 directly and media M2 through a family; M1
and M2 share the description A. -/
def tiePerson : Person where
  media_list := [⟨"M1"⟩]
  citation_list := []
  primary_name := ⟨[]⟩
  alternate_names := []
  event_ref_list := []
  family_handle_list := ["F1"]

/-- Database for `tiePerson`: two distinct media, one description. -/
def tieDb : Db where
  person_map := [("P1", tiePerson)]
  family_map := [("F1", { media_list := [⟨"M2"⟩], event_ref_list := [] })]
  event_map := []
  citation_map := []
  media_map := [("M1", ⟨"A"⟩), ("M2", ⟨"A"⟩)]

/-- The six rules with the family rule first and the person's own media
rule last. -/
def swapped_rule_order : List Rule :=
  [Rule.family_media, Rule.person_citations, Rule.primary_name_citations,
   Rule.alternate_name_citations, Rule.person_events, Rule.person_media]

/-- C1: a successful collection run lists each media identifier at most
once no matter how many paths reach it, and every identifier is paired
with the description the database holds for it — which is the value
recorded at its first encounter, since every recording reads the
description from the database (first-seen wins). -/
theorem run_display_dedup_first_seen (db : Db) (a : Option Handle)
    (out : List (Handle × String)) (h : run_display db a = some out) :
    (out.map Prod.fst).Nodup ∧ ∀ q ∈ out, descOf db q.1 = some q.2 := by
  cases a with
  | none =>
    have hz : run_display db none = some [] := rfl
    rw [hz] at h
    injection h with h
    subst h
    exact ⟨by simp, by intro q hq; simp at hq⟩
  | some ah =>
    by_cases hne : ah = ""
    · subst hne
      have hz : run_display db (some "") = some [] := rfl
      rw [hz] at h
      injection h with h
      subst h
      exact ⟨by simp, by intro q hq; simp at hq⟩
    · obtain ⟨active, am, hp, hc, hout⟩ := run_display_some_inv hne h
      subst hout
      constructor
      · have hperm := (sort_media_perm am).map Prod.fst
        exact hperm.nodup_iff.mpr (collect_media_nodup hc)
      · intro q hq
        exact collect_media_inv hc q (sort_media_mem.mp hq)

theorem run_display_dedup_first_seen_witness :
    (exOut.map Prod.fst).Nodup ∧ descOf exDb "MZ" = some "Zebra" := by
  have h := run_display_dedup_first_seen exDb (some "P1") exOut (by decide)
  exact ⟨h.1, h.2 ("MZ", "Zebra") (by decide)⟩

/-- C2: the output of a successful run for a resolving person is sorted
ascending by description under case-sensitive lexical comparison, and it
is a stable rearrangement of the discovery-order dict: for every
description value, the pairs carrying it appear in discovery order. -/
theorem run_display_sorted_stable (db : Db) (ah : Handle) (active : Person)
    (out : List (Handle × String)) (hne : ah ≠ "")
    (hp : db.get_person_from_handle ah = some active)
    (h : run_display db (some ah) = some out) :
    List.Sorted descLe out ∧ ∃ am, collect_media db active = some am ∧
      out.Perm am ∧
      ∀ d, out.filter (fun q => q.2 == d) = am.filter (fun q => q.2 == d) := by
  obtain ⟨active', am, hp', hc, hout⟩ := run_display_some_inv hne h
  rw [hp] at hp'
  injection hp' with hpe
  subst hpe
  subst hout
  exact ⟨sort_media_sorted am, am, hc, sort_media_perm am,
    fun d => sort_media_filter am d⟩

theorem run_display_sorted_stable_witness :
    List.Sorted descLe exOut :=
  (run_display_sorted_stable exDb "P1" exPerson exOut
    (by decide) (by decide) (by decide)).1

/-- C3: for a resolving person, the set of identifiers in the output is
exactly the union of sources the specification enumerates: person media,
citations of person, primary and alternate names, person events, and for
each family its own media plus its events' citations — nothing else. -/
theorem run_display_media_sources (db : Db) (ah : Handle) (active : Person)
    (out : List (Handle × String)) (hne : ah ≠ "")
    (hp : db.get_person_from_handle ah = some active)
    (h : run_display db (some ah) = some out) :
    ∀ hdl, (hdl ∈ out.map Prod.fst ↔ SpecReachable db active hdl) := by
  obtain ⟨active', am, hp', hc, hout⟩ := run_display_some_inv hne h
  rw [hp] at hp'
  injection hp' with hpe
  subst hpe
  subst hout
  intro hdl
  have hkeys : hdl ∈ (sort_media am).map Prod.fst ↔ hdl ∈ am.map Prod.fst := by
    simp only [List.mem_map]
    constructor <;> rintro ⟨q, hq, hfst⟩
    · exact ⟨q, sort_media_mem.mp hq, hfst⟩
    · exact ⟨q, sort_media_mem.mpr hq, hfst⟩
  rw [hkeys, ← mem_footprint_iff]
  constructor
  · intro hm
    obtain ⟨q, hq, hfst⟩ := List.mem_map.mp hm
    subst hfst
    exact ((collect_media_mem hc q.1 q.2).mp hq).1
  · intro hm
    exact collect_media_covers hc hdl hm

theorem run_display_media_sources_witness :
    "MB" ∈ exOut.map Prod.fst ↔ SpecReachable exDb exPerson "MB" :=
  run_display_media_sources exDb "P1" exPerson exOut
    (by decide) (by decide) (by decide) "MB"

/-- C4 counterexample: the active identifier P1 is present but resolves
to no person record; the run does not yield the empty result — the
unguarded lookup failure propagates and the run produces nothing. -/
theorem unresolved_active_cex :
    emptyPersonDb.get_person_from_handle "P1" = none ∧
    run_display emptyPersonDb (some "P1") = none ∧
    run_display emptyPersonDb (some "P1") ≠ some [] := by
  refine ⟨rfl, rfl, ?_⟩
  decide

/-- C4 amended: if the active person identifier is present and non-empty
but does not resolve to a person record, the lookup failure propagates
and the collection run fails, yielding no result; the empty display
arises only from an absent or empty identifier. -/
theorem unresolved_active_propagates {db : Db} {ah : Handle} (hne : ah ≠ "")
    (hp : db.get_person_from_handle ah = none) :
    run_display db (some ah) = none :=
  run_display_none_of_person_none hne hp

theorem unresolved_active_propagates_witness :
    run_display emptyPersonDb (some "QQ") = none :=
  unresolved_active_propagates (by decide) (by decide)

/-- C5: an absent active person identifier yields the empty display
sequence and the run succeeds — this case is not an error. -/
theorem absent_active_empty (db : Db) : run_display db none = some [] := rfl

/-- C6 counterexample: with two distinct media sharing one description,
running the rules in the source order produces M1 before M2 while the
swapped (still permuted) order produces M2 before M1, so the final
ordered outputs differ even though both are deduplicated and re-sorted:
the stable sort keeps ties in discovery order, which rule order
changes. -/
theorem rule_order_changes_output :
    swapped_rule_order.Perm spec_rule_order ∧
    (run_rules tieDb tiePerson spec_rule_order []).map sort_media =
      some [("M1", "A"), ("M2", "A")] ∧
    (run_rules tieDb tiePerson swapped_rule_order []).map sort_media =
      some [("M2", "A"), ("M1", "A")] ∧
    (run_rules tieDb tiePerson swapped_rule_order []).map sort_media ≠
      (run_rules tieDb tiePerson spec_rule_order []).map sort_media := by
  refine ⟨by decide, by decide, by decide, by decide⟩

/-- C6 amended: applying the collection rules in any permuted order
yields, after deduplication and the re-sort, an output containing
exactly the same (identifier, description) pairs, and both outputs are
sorted by description; rule order can affect only the relative order of
pairs whose descriptions tie. -/
theorem rule_order_same_set (db : Db) (p : Person) (rules1 rules2 : List Rule)
    (out1 out2 : AllMedia) (hperm : rules1.Perm rules2)
    (h1 : (run_rules db p rules1 []).map sort_media = some out1)
    (h2 : (run_rules db p rules2 []).map sort_media = some out2) :
    out1.Perm out2 ∧ List.Sorted descLe out1 ∧ List.Sorted descLe out2 := by
  rcases Option.map_eq_some'.mp h1 with ⟨am1, ham1, hout1⟩
  rcases Option.map_eq_some'.mp h2 with ⟨am2, ham2, hout2⟩
  subst hout1
  subst hout2
  have i0 : DescInv db ([] : AllMedia) := by intro q hq; simp at hq
  have n0 : (([] : AllMedia).map Prod.fst).Nodup := by simp
  have hm1 := run_rules_mem i0 ham1
  have hm2 := run_rules_mem i0 ham2
  have hflat : ∀ hdl, hdl ∈ rules1.flatMap (rule_media db p) ↔
      hdl ∈ rules2.flatMap (rule_media db p) := by
    intro hdl
    simp only [List.mem_flatMap]
    constructor <;> rintro ⟨r, hr, hm⟩
    · exact ⟨r, hperm.mem_iff.mp hr, hm⟩
    · exact ⟨r, hperm.mem_iff.mpr hr, hm⟩
  have hmem : ∀ q : Handle × String, q ∈ am1 ↔ q ∈ am2 := by
    rintro ⟨x, y⟩
    rw [hm1 x y, hm2 x y]
    simp only [List.not_mem_nil, false_or]
    rw [hflat x]
  have hnd1 : am1.Nodup := (run_rules_nodup n0 ham1).of_map
  have hnd2 : am2.Nodup := (run_rules_nodup n0 ham2).of_map
  have hperm12 : am1.Perm am2 := (List.perm_ext_iff_of_nodup hnd1 hnd2).mpr hmem
  exact ⟨(sort_media_perm am1).trans (hperm12.trans (sort_media_perm am2).symm),
    sort_media_sorted am1, sort_media_sorted am2⟩

theorem rule_order_same_set_witness :
    ([("M1", "A"), ("M2", "A")] : AllMedia).Perm [("M2", "A"), ("M1", "A")] ∧
    List.Sorted descLe [("M1", "A"), ("M2", "A")] ∧
    List.Sorted descLe [("M2", "A"), ("M1", "A")] :=
  rule_order_same_set tieDb tiePerson spec_rule_order swapped_rule_order
    [("M1", "A"), ("M2", "A")] [("M2", "A"), ("M1", "A")]
    (by decide) (by decide) (by decide)

/-- C7: with a resolving active person, if any handle dereferenced
during the traversal fails to resolve — a citation handle of the
person, of the primary or an alternate name, or of a reached event; an
event reference of the person or of a family; a family handle; or a
media reference of the person, of a reached citation or of a family —
then the collector reproduces the upstream lookup failure
deterministically: the run yields no result instead of silently
skipping the dangling reference or recovering. -/
theorem dangling_handle_propagates (db : Db) (ah : Handle) (active : Person)
    (hne : ah ≠ "") (hp : db.get_person_from_handle ah = some active)
    (hd : TraversalDangling db active) :
    run_display db (some ah) = none :=
  run_display_none_of_collect_none hne hp (collect_media_none_of_dangling hd)

theorem dangling_handle_propagates_witness :
    run_display danglingDb (some "P1") = none :=
  dangling_handle_propagates danglingDb "P1" danglingPerson
    (by decide) (by decide)
    (Or.inr (Or.inl ⟨"C1", by decide,
      Or.inr ⟨⟨[⟨"MX"⟩]⟩, by decide, ⟨"MX"⟩, by decide, by decide⟩⟩))

/-- C8: running `main` twice in succession with the same database and
active handle and no intervening change leaves the state of the first
run unchanged — the displayed ordered output is identical both times. -/
theorem gramplet_main_idempotent (db : Db) (a : Option Handle)
    (s s1 s2 : GrampletState)
    (h1 : DeepGallery.main db a s = some s1)
    (h2 : DeepGallery.main db a s1 = some s2) : s2 = s1 := by
  cases a with
  | none =>
    simp only [DeepGallery.main, Option.some.injEq] at h1 h2
    subst h1
    subst h2
    rfl
  | some ah =>
    by_cases hne : ah = ""
    · subst hne
      simp [DeepGallery.main] at h1 h2
      subst h1
      subst h2
      rfl
    · simp only [DeepGallery.main, if_neg hne] at h1 h2
      rw [h1] at h2
      injection h2 with h2
      exact h2.symm

theorem gramplet_main_idempotent_witness :
    (⟨exOut, exAm⟩ : GrampletState) = ⟨exOut, exAm⟩ :=
  gramplet_main_idempotent exDb (some "P1") ⟨[], []⟩ ⟨exOut, exAm⟩ ⟨exOut, exAm⟩
    (by decide) (by decide)

/-- C9: the displayed output of `main` is a function of the database and
the active handle only: two runs from arbitrary prior gramplet states
display the same list (and fail together), because the display is
cleared and the dict rebuilt from scratch on every invocation. -/
theorem gramplet_main_state_independent (db : Db) (a : Option Handle)
    (s s' : GrampletState) :
    (DeepGallery.main db a s).map GrampletState.image_list =
      (DeepGallery.main db a s').map GrampletState.image_list := by
  cases a with
  | none => rfl
  | some ah =>
    by_cases hne : ah = ""
    · subst hne
      rfl
    · simp only [DeepGallery.main, if_neg hne]

/-- C10: every displayed description is obtained by resolving the
identifier against the database, never taken from the referencing
object; hence for a fixed database the description is a function of the
identifier alone, and two output pairs with the same identifier can
never carry diverging descriptions. -/
theorem descriptions_from_database (db : Db) (a : Option Handle)
    (out : List (Handle × String)) (h : run_display db a = some out) :
    (∀ q ∈ out, descOf db q.1 = some q.2) ∧
    ∀ q ∈ out, ∀ q' ∈ out, q.1 = q'.1 → q.2 = q'.2 := by
  have hdesc : ∀ q ∈ out, descOf db q.1 = some q.2 := by
    cases a with
    | none =>
      have hz : run_display db none = some [] := rfl
      rw [hz] at h
      injection h with h
      subst h
      intro q hq
      simp at hq
    | some ah =>
      by_cases hne : ah = ""
      · subst hne
        have hz : run_display db (some "") = some [] := rfl
        rw [hz] at h
        injection h with h
        subst h
        intro q hq
        simp at hq
      · obtain ⟨active, am, hp, hc, hout⟩ := run_display_some_inv hne h
        subst hout
        intro q hq
        exact collect_media_inv hc q (sort_media_mem.mp hq)
  refine ⟨hdesc, ?_⟩
  intro q hq q' hq' heq
  have d1 := hdesc q hq
  have d2 := hdesc q' hq'
  rw [heq] at d1
  rw [d2] at d1
  injection d1 with d1
  exact d1.symm

theorem descriptions_from_database_witness :
    descOf exDb "MA" = some "Apple" :=
  (descriptions_from_database exDb (some "P1") exOut (by decide)).1
    ("MA", "Apple") (by decide)
